import Mathlib

/-!
Verification of the synchronized multi-actuator motion controller of
`pico_main.py` (Wall-E animatronics): the lazy-PWM servo model
(`ServoLazy`), the pulse-to-duty conversion (`us_to_duty`), the
synchronized group ramp (`move_group`) and the gesture layer
(`lids_open`, `lids_close`, `blink`, `wink_left`, `wink_right`,
`release_all`).

The embedding is shallow: pulse widths are `Int` microseconds, a servo's
PWM channel is `Option Int` (`some duty` when the channel is driven,
`none` when released), `time.sleep_ms` calls are dropped (timing is not
modelled), and the `while True` stepping loop of `move_group` is run on
explicit fuel; the fuel actually used (`fuelFor`) is proved sufficient
for the loop to reach its `done` exit.
-/

/-- PERIOD_US = 20_000 (50 Hz servo period, line 38 of pico_main.py). -/
def PERIOD_US : Int := 20000

/-- us_to_duty (lines 40-47): `int(int(us) * 65535 // PERIOD_US)`.
Python `//` is floor division, i.e. `Int.fdiv`. -/
def us_to_duty (us : Int) : Int := (us * 65535).fdiv PERIOD_US

/-- ServoLazy (lines 49-130): one servo; `pin` is the GPIO pin,
`current_us` the recorded pulse width, `pwm` the PWM channel state:
`none` when not driven (`self.pwm is None`), `some duty` when driven
with duty register `duty`. -/
structure ServoLazy where
  pin : Int
  current_us : Int
  pwm : Option Int
deriving DecidableEq, Repr

/-- ServoLazy.enable (lines 67-77): if the channel is off, start driving
it at the duty of the current pulse; otherwise do nothing. -/
def ServoLazy.enable (s : ServoLazy) : ServoLazy :=
  match s.pwm with
  | none => { s with pwm := some (us_to_duty s.current_us) }
  | some _ => s

/-- ServoLazy.write (lines 79-89): record `us` unconditionally; update
the duty register only when the channel is driven (`if self.pwm:`). -/
def ServoLazy.write (s : ServoLazy) (us : Int) : ServoLazy :=
  match s.pwm with
  | none => { s with current_us := us }
  | some _ => { s with current_us := us, pwm := some (us_to_duty us) }

/-- Model of `machine.PWM.deinit`, which may raise; `fails` selects the
environment's behaviour. -/
def pwm_deinit (fails : Bool) : Except String Unit :=
  if fails then Except.error "deinit failed" else Except.ok ()

/-- ServoLazy.release (lines 118-130): if driven, `try: deinit()
except: pass`, then `self.pwm = None`; both outcomes of the deinit end
with the channel off. A released servo is left untouched. -/
def ServoLazy.release (fails : Bool) (s : ServoLazy) : ServoLazy :=
  match s.pwm with
  | none => s
  | some _ =>
    match pwm_deinit fails with
    | Except.ok _ => { s with pwm := none }
    | Except.error _ => { s with pwm := none }

/-- Direction of a ramp: `1 if target > cur else -1` (line 108 / 206). -/
def dirOf (c t : Int) : Int := if t > c then 1 else -1

/-- One stepping update of the group loop (lines 206-209): the direction
`d` is recomputed from the current value, the value advances by `d * s`
(`nxt = c + d * 20` in the source) and is clamped to the target if it
would overshoot. In `move_group`, `s = 20`. -/
def stepToward (c t s : Int) : Int :=
  if (dirOf c t = 1 ∧ c + dirOf c t * s > t) ∨ (dirOf c t = -1 ∧ c + dirOf c t * s < t)
  then t else c + dirOf c t * s

/-- One loop body of `ServoLazy.move` (lines 111-115): `stp` is the
signed step fixed at entry (`abs(step) * direction`), `d` the direction
fixed at entry; `nxt = cur + stp` is clamped to the target on overshoot. -/
def moveStep (c t stp d : Int) : Int :=
  if (d = 1 ∧ c + stp > t) ∨ (d = -1 ∧ c + stp < t) then t else c + stp

/-- Number of steps of a ramp of distance `a` with step `s`:
`ceil(a / s)` in natural arithmetic. -/
def ceilSteps (a s : Nat) : Nat := (a + s - 1) / s

/-- Fuel-indexed run of the `while cur != target` loop of
`ServoLazy.move` (lines 111-116): each iteration writes the stepped
value through `ServoLazy.write`. -/
def moveLoop (t stp d : Int) : Nat → ServoLazy → ServoLazy
  | 0, s => s
  | Nat.succ k, s =>
    if s.current_us = t then s
    else moveLoop t stp d k (s.write (moveStep s.current_us t stp d))

/-- ServoLazy.move (lines 91-116): enable, return at once if already at
target, otherwise fix `direction` and `step = abs(step) * direction`
and loop. The fuel `ceilSteps` is exactly the number of iterations the
source loop performs (proved below). -/
def ServoLazy.move (s : ServoLazy) (target_us : Int) (step : Int := 20) : ServoLazy :=
  let s := s.enable
  if s.current_us = target_us then s
  else
    let d := dirOf s.current_us target_us
    moveLoop target_us (|step| * d) d
      (ceilSteps (target_us - s.current_us).natAbs (|step|).toNat) s

/-- Reference iteration of `stepToward` with the at-target guard of the
loops: the abstract ramp both `ServoLazy.move` and the `move_group`
member stepping follow. -/
def iterStep (s t : Int) : Nat → Int → Int
  | 0, c => c
  | Nat.succ k, c => if c = t then c else iterStep s t k (stepToward c t s)

/-- Eyelid servo names (keys of the SERVOS dict, lines 135-140). -/
inductive Lid where
  | TL | BL | TR | BR
deriving DecidableEq, Repr

/-- SERVOS (lines 135-140): each per-lid dict maps exactly the keys
"pin", "open" and "closed" to its calibration constants; any other key
is absent (a lookup raises KeyError). -/
def SERVOS (n : Lid) (key : String) : Option Int :=
  match n with
  | Lid.TL =>
    if key = "pin" then some 12 else if key = "open" then some 2200
    else if key = "closed" then some 1155 else none
  | Lid.BL =>
    if key = "pin" then some 9 else if key = "open" then some 1560
    else if key = "closed" then some 2360 else none
  | Lid.TR =>
    if key = "pin" then some 7 else if key = "open" then some 700
    else if key = "closed" then some 1700 else none
  | Lid.BR =>
    if key = "pin" then some 15 else if key = "open" then some 1920
    else if key = "closed" then some 1040 else none

/-- LEFT_EYE (line 142). -/
def LEFT_EYE : List Lid := [Lid.TL, Lid.BL]

/-- RIGHT_EYE (line 143). -/
def RIGHT_EYE : List Lid := [Lid.TR, Lid.BR]

/-- ALL_LIDS (line 144). -/
def ALL_LIDS : List Lid := [Lid.TL, Lid.TR, Lid.BL, Lid.BR]

/-- Whole-module servo state: the four eyelid servos (`eyelids` dict,
line 146) and the two gaze servos `UD` and `LR` (lines 157-158). -/
structure Sys where
  lids : Lid → ServoLazy
  ud : ServoLazy
  lr : ServoLazy

/-- Initial module state: each eyelid at its calibrated "open" pulse
(line 146), UD at UD_MID = 1410, LR at LR_MID = 1370, all channels off. -/
def initSys : Sys where
  lids n := { pin := (SERVOS n "pin").getD 0
              current_us := (SERVOS n "open").getD 0
              pwm := none }
  ud := { pin := 11, current_us := 1410, pwm := none }
  lr := { pin := 5, current_us := 1370, pwm := none }

/-- enable_all_lids (lines 163-171): enable each of ALL_LIDS in order
(the 50 ms stagger between enables is timing, not modelled). -/
def enable_all_lids (sys : Sys) : Sys :=
  ALL_LIDS.foldl
    (fun s k => { s with lids := Function.update s.lids k ((s.lids k).enable) })
    sys

/-- release_all (lines 173-183): release every eyelid servo, then UD
and LR. -/
def release_all (fails : Bool) (sys : Sys) : Sys where
  lids n := (sys.lids n).release fails
  ud := sys.ud.release fails
  lr := sys.lr.release fails

/-- State of the `move_group` stepping loop: the `cur` dict, the module
servo state the loop writes into, and the `done` flag. -/
structure GroupSt where
  cur : Lid → Int
  sys : Sys
  done : Bool

/-- Write `v` to eyelid `n` of the module state (`eyelids[n].write(nxt)`,
line 211). -/
def writeLid (sys : Sys) (n : Lid) (v : Int) : Sys :=
  { sys with lids := Function.update sys.lids n ((sys.lids n).write v) }

/-- One member's turn in the group loop body (lines 200-211): skip it if
already at target (`continue`), otherwise clear `done`, step the `cur`
entry toward the target with step 20 and write the new value. -/
def passStep (tgt : Lid → Int) (acc : GroupSt) (n : Lid) : GroupSt :=
  let c := acc.cur n
  let t := tgt n
  if c = t then acc
  else
    let nxt := stepToward c t 20
    { cur := Function.update acc.cur n nxt
      sys := writeLid acc.sys n nxt
      done := false }

/-- One full iteration of the `while True` loop (lines 198-211): set
`done = True`, then give each member of `names` its turn in order. -/
def groupPass (names : List Lid) (tgt : Lid → Int) (st : GroupSt) : GroupSt :=
  names.foldl (passStep tgt) { st with done := true }

/-- Fuel-indexed run of the `while True` loop of `move_group` (lines
198-214): run one pass, exit when it reports `done`, else continue. -/
def groupLoop (names : List Lid) (tgt : Lid → Int) : Nat → GroupSt → GroupSt
  | 0, st => st
  | Nat.succ k, st =>
    let st' := groupPass names tgt st
    if st'.done then st' else groupLoop names tgt k st'

/-- Number of stepping iterations (passes that find some member off
target and so perform writes) the loop executes within the given fuel;
the final pass that reports `done` without writing is not counted. -/
def groupLoopCount (names : List Lid) (tgt : Lid → Int) : Nat → GroupSt → Nat
  | 0, _ => 0
  | Nat.succ k, st =>
    let st' := groupPass names tgt st
    if st'.done then 0 else 1 + groupLoopCount names tgt k st'

/-- Largest per-member step count of a group transition:
`max over names of ceil(|tgt - cur| / 20)`. -/
def maxNeed (names : List Lid) (tgt cur : Lid → Int) : Nat :=
  (names.map (fun n => ceilSteps (tgt n - cur n).natAbs 20)).foldr max 0

/-- Fuel given to the group loop: its exact pass count, the `maxNeed`
stepping passes plus the final `done` pass. -/
def fuelFor (names : List Lid) (tgt cur : Lid → Int) : Nat :=
  maxNeed names tgt cur + 1

/-- move_group (lines 185-214): enable all lids, snapshot the current
pulses, build the target table (`SERVOS[n][state]` raises KeyError when
the key is absent, modelled as `Except.error`), then run the
synchronized stepping loop. -/
def move_group (names : List Lid) (state : String) (sys : Sys) : Except String Sys :=
  let sys1 := enable_all_lids sys
  let cur : Lid → Int := fun n => (sys1.lids n).current_us
  if names.all (fun n => (SERVOS n state).isSome) then
    let tgt : Lid → Int := fun n => (SERVOS n state).getD 0
    Except.ok (groupLoop names tgt (fuelFor names tgt cur)
      { cur := cur, sys := sys1, done := false }).sys
  else
    Except.error ("KeyError: " ++ state)

/-- lids_open (lines 216-223): move all lids to "open", then release
everything. -/
def lids_open (fails : Bool) (sys : Sys) : Except String Sys :=
  (move_group ALL_LIDS "open" sys).map (release_all fails)

/-- lids_close (lines 225-232). -/
def lids_close (fails : Bool) (sys : Sys) : Except String Sys :=
  (move_group ALL_LIDS "closed" sys).map (release_all fails)

/-- blink (lines 234-242): close all, hold, open all (each of the two
gestures releases everything at its end). -/
def blink (fails : Bool) (sys : Sys) : Except String Sys :=
  (lids_close fails sys).bind (lids_open fails)

/-- wink_left (lines 244-253): close the left pair, hold, reopen it,
release everything. -/
def wink_left (fails : Bool) (sys : Sys) : Except String Sys :=
  ((move_group LEFT_EYE "closed" sys).bind
    (move_group LEFT_EYE "open")).map (release_all fails)

/-- wink_right (lines 255-264). -/
def wink_right (fails : Bool) (sys : Sys) : Except String Sys :=
  ((move_group RIGHT_EYE "closed" sys).bind
    (move_group RIGHT_EYE "open")).map (release_all fails)

/-- Every PWM channel of the system is off. -/
def allReleased (sys : Sys) : Prop :=
  (∀ n, (sys.lids n).pwm = none) ∧ sys.ud.pwm = none ∧ sys.lr.pwm = none

/-- Public operation alphabet for the eyelid subsystem: the five lid
gestures, release_all, and a direct `move_group` call. -/
inductive Op where
  | opLidsOpen (fails : Bool)
  | opLidsClose (fails : Bool)
  | opBlink (fails : Bool)
  | opWinkLeft (fails : Bool)
  | opWinkRight (fails : Bool)
  | opReleaseAll (fails : Bool)
  | opMoveGroup (names : List Lid) (state : String)
deriving DecidableEq, Repr

/-- Run one public operation. -/
def applyOp (op : Op) (sys : Sys) : Except String Sys :=
  match op with
  | Op.opLidsOpen b => lids_open b sys
  | Op.opLidsClose b => lids_close b sys
  | Op.opBlink b => blink b sys
  | Op.opWinkLeft b => wink_left b sys
  | Op.opWinkRight b => wink_right b sys
  | Op.opReleaseAll b => Except.ok (release_all b sys)
  | Op.opMoveGroup names state => move_group names state sys

/-- Run a sequence of public operations. -/
def runOps : List Op → Sys → Except String Sys
  | [], sys => Except.ok sys
  | op :: ops, sys => (applyOp op sys).bind (runOps ops)

/-- A direct `move_group` operation is valid when its state is one of
the two named states and its member list names distinct servos (groups
are sets of members); gestures and release_all are always valid. -/
def validOp : Op → Bool
  | Op.opMoveGroup names state =>
    (state == "open" || state == "closed") && decide names.Nodup
  | _ => true

/-- Calibrated "open" pulse of a lid. -/
def openUs (n : Lid) : Int := (SERVOS n "open").getD 0

/-- Calibrated "closed" pulse of a lid. -/
def closedUs (n : Lid) : Int := (SERVOS n "closed").getD 0

/-- Every eyelid's recorded pulse is at one of its two calibrated
positions. -/
def atCalibrated (sys : Sys) : Prop :=
  ∀ n, (sys.lids n).current_us = openUs n ∨ (sys.lids n).current_us = closedUs n

/-- Scenario group of the spec: members A and B, realized as TL and BL. -/
def scenNames : List Lid := [Lid.TL, Lid.BL]

/-- Scenario targets: A moves 1000 to 2000, B stays at 1800. -/
def scenTgt : Lid → Int :=
  fun n => match n with
  | Lid.TL => 2000
  | Lid.BL => 1800
  | _ => 0

/-- Scenario module state: A at 1000, B at 1800, both driven with a
sentinel duty register so that any write to them would be observable. -/
def scenSys : Sys where
  lids n :=
    match n with
    | Lid.TL => { pin := 1, current_us := 1000, pwm := some 0 }
    | Lid.BL => { pin := 2, current_us := 1800, pwm := some 0 }
    | Lid.TR => { pin := 3, current_us := 0, pwm := none }
    | Lid.BR => { pin := 4, current_us := 0, pwm := none }
  ud := { pin := 11, current_us := 1410, pwm := none }
  lr := { pin := 5, current_us := 1370, pwm := none }

/-- Scenario loop state as `move_group` would build it after enabling. -/
def scenSt : GroupSt where
  cur n := (scenSys.lids n).current_us
  sys := scenSys
  done := false

/-- Enabling a servo never changes its recorded pulse. -/
theorem enable_current_us (s : ServoLazy) : s.enable.current_us = s.current_us := by
  cases h : s.pwm <;> simp [ServoLazy.enable, h]

/-- Writing records exactly the written pulse. -/
theorem write_current_us (s : ServoLazy) (us : Int) : (s.write us).current_us = us := by
  cases h : s.pwm <;> simp [ServoLazy.write, h]

/-- Writing keeps the PWM channel driven when it was driven. -/
theorem write_pwm_isSome (s : ServoLazy) (us : Int) (h : s.pwm.isSome) :
    ((s.write us).pwm).isSome := by
  cases hp : s.pwm
  · rw [hp] at h; simp at h
  · simp [ServoLazy.write, hp]

/-- Enabling leaves the PWM channel driven. -/
theorem enable_pwm_isSome (s : ServoLazy) : (s.enable.pwm).isSome := by
  cases h : s.pwm <;> simp [ServoLazy.enable, h]

/-- Below the target the recomputed direction is `1`. -/
theorem dirOf_pos (c t : Int) (h : c < t) : dirOf c t = 1 := by
  unfold dirOf; rw [if_pos h]

/-- At or above the target the recomputed direction is `-1`. -/
theorem dirOf_neg (c t : Int) (h : t ≤ c) : dirOf c t = -1 := by
  unfold dirOf; rw [if_neg (not_lt_of_ge h)]

/-- One clamped step with positive step size shortens the distance to
the target by exactly the step size (truncated at zero). -/
theorem stepToward_dist (c t s : Int) (hs : 0 < s) :
    (t - stepToward c t s).natAbs = (t - c).natAbs - s.toNat := by
  rcases lt_or_le c t with h | h
  · norm_num [stepToward, dirOf_pos c t h]
    split_ifs <;> omega
  · norm_num [stepToward, dirOf_neg c t h]
    split_ifs <;> omega

/-- A clamped step from strictly below the target lands in `(c, t]`;
from strictly above, in `[t, c)`; at the target it stays. -/
theorem stepToward_between (c t s : Int) (hs : 0 < s) :
    (c < t → c < stepToward c t s ∧ stepToward c t s ≤ t) ∧
    (t < c → t ≤ stepToward c t s ∧ stepToward c t s < c) ∧
    (c = t → stepToward c t s = t) := by
  rcases lt_or_le c t with h | h
  · norm_num [stepToward, dirOf_pos c t h]
    split_ifs <;> omega
  · norm_num [stepToward, dirOf_neg c t h]
    split_ifs <;> omega

/-- Closed form of the ramp: after `k` guarded steps the distance to the
target is the initial distance minus `k` step sizes (truncated at 0). -/
theorem iterStep_dist (s t : Int) (hs : 0 < s) :
    ∀ (k : Nat) (c : Int),
      (t - iterStep s t k c).natAbs = (t - c).natAbs - k * s.toNat
  | 0, c => by simp [iterStep]
  | Nat.succ k, c => by
    by_cases h : c = t
    · simp [iterStep, h]
    · simp only [iterStep, h, if_false]
      rw [iterStep_dist s t hs k (stepToward c t s), stepToward_dist c t s hs,
        Nat.sub_sub, Nat.succ_mul, Nat.add_comm]

/-- The ramp sits at the target after `k` steps iff `k` step sizes cover
the initial distance. -/
theorem iterStep_eq_iff (s t : Int) (hs : 0 < s) (k : Nat) (c : Int) :
    iterStep s t k c = t ↔ (t - c).natAbs ≤ k * s.toNat := by
  have hd := iterStep_dist s t hs k c
  constructor
  · intro he; rw [he] at hd; simp at hd; omega
  · intro hle
    have h0 : (t - iterStep s t k c).natAbs = 0 := by omega
    have h1 : t - iterStep s t k c = 0 := Int.natAbs_eq_zero.mp h0
    omega

/-- Characterization of `ceilSteps` as the least sufficient step count. -/
theorem ceilSteps_le_iff (a s k : Nat) (hs : 0 < s) :
    ceilSteps a s ≤ k ↔ a ≤ k * s := by
  unfold ceilSteps
  rw [← Nat.lt_succ_iff, Nat.div_lt_iff_lt_mul hs, Nat.succ_mul]
  generalize k * s = m
  omega

/-- A zero ceiling means a zero distance. -/
theorem ceilSteps_eq_zero_iff (a s : Nat) (hs : 0 < s) :
    ceilSteps a s = 0 ↔ a = 0 := by
  rw [← Nat.le_zero, ceilSteps_le_iff a s 0 hs]
  omega

/-- Shrinking the distance by one step size lowers the ceiling by one. -/
theorem ceilSteps_sub (a s : Nat) (hs : 0 < s) :
    ceilSteps (a - s) s = ceilSteps a s - 1 := by
  have key : ∀ k, ceilSteps (a - s) s ≤ k ↔ ceilSteps a s - 1 ≤ k := by
    intro k
    rw [ceilSteps_le_iff _ _ _ hs]
    have h1 : ceilSteps a s - 1 ≤ k ↔ ceilSteps a s ≤ k + 1 := by omega
    rw [h1, ceilSteps_le_iff _ _ _ hs, Nat.succ_mul]
    generalize k * s = m
    omega
  have h1 := (key (ceilSteps a s - 1)).mpr le_rfl
  have h2 := (key (ceilSteps (a - s) s)).mp le_rfl
  omega

/-- With the direction argument fixed to the current direction, a
`ServoLazy.move` loop body computes the same value as the group loop's
step. -/
theorem moveStep_eq (c t s : Int) :
    moveStep c t (s * dirOf c t) (dirOf c t) = stepToward c t s := by
  rcases lt_or_le c t with h | h
  · norm_num [moveStep, stepToward, dirOf_pos c t h]
  · norm_num [moveStep, stepToward, dirOf_neg c t h]

/-- The `ServoLazy.move` loop tracks the reference ramp `iterStep`
whenever its fixed direction agrees with the current direction (or the
servo is already at the target). -/
theorem moveLoop_current (t s d : Int) (hs : 0 < s) :
    ∀ (k : Nat) (sv : ServoLazy),
      (sv.current_us = t ∨ d = dirOf sv.current_us t) →
      (moveLoop t (s * d) d k sv).current_us = iterStep s t k sv.current_us
  | 0, sv, _ => rfl
  | Nat.succ k, sv, hside => by
    by_cases h : sv.current_us = t
    · simp [moveLoop, iterStep, h]
    · have hd : d = dirOf sv.current_us t := hside.resolve_left h
      simp only [moveLoop, iterStep, h, if_false]
      have hms : moveStep sv.current_us t (s * d) d = stepToward sv.current_us t s := by
        rw [hd]; exact moveStep_eq sv.current_us t s
      rw [hms]
      have hw : (sv.write (stepToward sv.current_us t s)).current_us
          = stepToward sv.current_us t s := write_current_us _ _
      have hb := stepToward_between sv.current_us t s hs
      have hside' : (sv.write (stepToward sv.current_us t s)).current_us = t ∨
          d = dirOf (sv.write (stepToward sv.current_us t s)).current_us t := by
        rw [hw, hd]
        rcases lt_trichotomy sv.current_us t with hlt | heq | hgt
        · rcases hb.1 hlt with ⟨_, hle⟩
          rcases eq_or_lt_of_le hle with he | hlt2
          · exact Or.inl he
          · rw [dirOf_pos _ _ hlt, dirOf_pos _ _ hlt2]
            exact Or.inr rfl
        · exact absurd heq h
        · rcases hb.2.1 hgt with ⟨hge, _⟩
          rcases eq_or_lt_of_le hge with he | hgt2
          · exact Or.inl he.symm
          · rw [dirOf_neg _ _ (le_of_lt hgt), dirOf_neg _ _ (le_of_lt hgt2)]
            exact Or.inr rfl
      rw [moveLoop_current t s d hs k _ hside', hw]

/-- A `ServoLazy.move` with positive step lands exactly on the target. -/
theorem move_current_us (sv : ServoLazy) (t s : Int) (hs : 0 < s) :
    (ServoLazy.move sv t s).current_us = t := by
  unfold ServoLazy.move
  by_cases h : sv.enable.current_us = t
  · simp [h]
  · simp only [h, if_false]
    rw [abs_of_pos hs]
    rw [moveLoop_current t s (dirOf sv.enable.current_us t) hs _ _ (Or.inr rfl)]
    rw [iterStep_eq_iff s t hs]
    have hpos : 0 < s.toNat := by omega
    exact (ceilSteps_le_iff _ _ _ hpos).mp le_rfl

/-- Every stored pulse of the loop state mirrors the servo it was
written to (the `cur` dict stays in sync with `eyelids`). -/
def curSysInv (st : GroupSt) : Prop :=
  ∀ n, st.cur n = (st.sys.lids n).current_us

/-- All four eyelid channels are driven. -/
def allPowered (sys : Sys) : Prop :=
  ∀ n, ((sys.lids n).pwm).isSome

/-- A member's turn never touches the gaze servos. -/
theorem passStep_ud_lr (tgt : Lid → Int) (acc : GroupSt) (n : Lid) :
    (passStep tgt acc n).sys.ud = acc.sys.ud ∧ (passStep tgt acc n).sys.lr = acc.sys.lr := by
  simp only [passStep, writeLid]
  split_ifs <;> exact ⟨rfl, rfl⟩

/-- A member's turn leaves every other member's `cur` entry alone. -/
theorem passStep_cur_ne (tgt : Lid → Int) (acc : GroupSt) (n m : Lid) (h : m ≠ n) :
    (passStep tgt acc n).cur m = acc.cur m := by
  simp only [passStep]
  split_ifs
  · rfl
  · exact Function.update_noteq h _ _

/-- A member's turn leaves every other servo alone. -/
theorem passStep_lids_ne (tgt : Lid → Int) (acc : GroupSt) (n m : Lid) (h : m ≠ n) :
    (passStep tgt acc n).sys.lids m = acc.sys.lids m := by
  simp only [passStep, writeLid]
  split_ifs
  · rfl
  · exact Function.update_noteq h _ _

/-- A member already at its target is skipped: its turn is a no-op. -/
theorem passStep_at_tgt (tgt : Lid → Int) (acc : GroupSt) (n : Lid)
    (h : acc.cur n = tgt n) : passStep tgt acc n = acc := by
  simp [passStep, h]

/-- A member off target clears the `done` flag; no turn ever sets it. -/
theorem passStep_done_false (tgt : Lid → Int) (acc : GroupSt) (n : Lid)
    (h : acc.done = false) : (passStep tgt acc n).done = false := by
  simp only [passStep]
  split_ifs
  · exact h
  · rfl

/-- A pass over names not containing `m` leaves `m`'s entries alone. -/
theorem passFold_frame (tgt : Lid → Int) (m : Lid) :
    ∀ (names : List Lid) (acc : GroupSt), m ∉ names →
      (List.foldl (passStep tgt) acc names).cur m = acc.cur m ∧
      (List.foldl (passStep tgt) acc names).sys.lids m = acc.sys.lids m
  | [], acc, _ => ⟨rfl, rfl⟩
  | n :: names, acc, hm => by
    have hmn : m ≠ n := by rintro rfl; exact hm (List.mem_cons_self _ _)
    have hmn' : m ∉ names := fun h => hm (List.mem_cons_of_mem n h)
    simp only [List.foldl_cons]
    rcases passFold_frame tgt m names (passStep tgt acc n) hmn' with ⟨h1, h2⟩
    rw [h1, h2, passStep_cur_ne tgt acc n m hmn, passStep_lids_ne tgt acc n m hmn]
    exact ⟨rfl, rfl⟩

/-- A pass never touches the gaze servos. -/
theorem passFold_ud_lr (tgt : Lid → Int) :
    ∀ (names : List Lid) (acc : GroupSt),
      (List.foldl (passStep tgt) acc names).sys.ud = acc.sys.ud ∧
      (List.foldl (passStep tgt) acc names).sys.lr = acc.sys.lr
  | [], acc => ⟨rfl, rfl⟩
  | n :: names, acc => by
    simp only [List.foldl_cons]
    rcases passFold_ud_lr tgt names (passStep tgt acc n) with ⟨h1, h2⟩
    rcases passStep_ud_lr tgt acc n with ⟨h3, h4⟩
    exact ⟨h1.trans h3, h2.trans h4⟩

/-- A cleared `done` flag stays cleared for the rest of the pass. -/
theorem passFold_done_false (tgt : Lid → Int) :
    ∀ (names : List Lid) (acc : GroupSt), acc.done = false →
      (List.foldl (passStep tgt) acc names).done = false
  | [], _, h => h
  | n :: names, acc, h => by
    simp only [List.foldl_cons]
    exact passFold_done_false tgt names _ (passStep_done_false tgt acc n h)

/-- If a pass ends with `done` still set, every processed member was at
its target when its turn came and the pass changed nothing. -/
theorem passFold_done_true (tgt : Lid → Int) :
    ∀ (names : List Lid) (acc : GroupSt),
      (List.foldl (passStep tgt) acc names).done = true →
      List.foldl (passStep tgt) acc names = acc ∧ ∀ n ∈ names, acc.cur n = tgt n
  | [], acc, _ => ⟨rfl, by simp⟩
  | n :: names, acc, h => by
    simp only [List.foldl_cons] at h ⊢
    by_cases hc : acc.cur n = tgt n
    · rw [passStep_at_tgt tgt acc n hc] at h ⊢
      rcases passFold_done_true tgt names acc h with ⟨h1, h2⟩
      refine ⟨h1, ?_⟩
      intro m hm
      rcases List.mem_cons.mp hm with rfl | hm'
      · exact hc
      · exact h2 m hm'
    · exfalso
      have hd : (passStep tgt acc n).done = false := by
        simp only [passStep]
        rw [if_neg hc]
      have := passFold_done_false tgt names _ hd
      rw [this] at h
      exact Bool.false_ne_true h

/-- A pass over members that all sit at their targets is the identity. -/
theorem passFold_id (tgt : Lid → Int) :
    ∀ (names : List Lid) (acc : GroupSt), (∀ n ∈ names, acc.cur n = tgt n) →
      List.foldl (passStep tgt) acc names = acc
  | [], _, _ => rfl
  | n :: names, acc, h => by
    simp only [List.foldl_cons]
    rw [passStep_at_tgt tgt acc n (h n (List.mem_cons_self _ _))]
    exact passFold_id tgt names acc fun m hm => h m (List.mem_cons_of_mem n hm)

/-- Over distinct member names, a pass advances each member's `cur`
entry by exactly one clamped step of size 20. -/
theorem passFold_cur_mem (tgt : Lid → Int) :
    ∀ (names : List Lid) (acc : GroupSt) (n : Lid), names.Nodup → n ∈ names →
      (List.foldl (passStep tgt) acc names).cur n = stepToward (acc.cur n) (tgt n) 20
  | [], _, _, _, hmem => absurd hmem (List.not_mem_nil _)
  | m :: names, acc, n, hnd, hmem => by
    simp only [List.foldl_cons]
    rcases List.mem_cons.mp hmem with rfl | hmem'
    · have hnin : n ∉ names := (List.nodup_cons.mp hnd).1
      rw [(passFold_frame tgt n names (passStep tgt acc n) hnin).1]
      by_cases hc : acc.cur n = tgt n
      · rw [passStep_at_tgt tgt acc n hc, hc]
        exact ((stepToward_between (tgt n) (tgt n) 20 (by norm_num)).2.2 rfl).symm
      · simp only [passStep]
        rw [if_neg hc]
        exact Function.update_same _ _ _
    · have hne : n ≠ m := by
        rintro rfl
        exact (List.nodup_cons.mp hnd).1 hmem'
      rw [passFold_cur_mem tgt names (passStep tgt acc m) n (List.nodup_cons.mp hnd).2 hmem',
        passStep_cur_ne tgt acc m n hne]

/-- Over distinct member names, a pass writes one stepped value to each
member off target and does not touch members already at target. -/
theorem passFold_sys_mem (tgt : Lid → Int) :
    ∀ (names : List Lid) (acc : GroupSt) (n : Lid), names.Nodup → n ∈ names →
      (List.foldl (passStep tgt) acc names).sys.lids n =
        if acc.cur n = tgt n then acc.sys.lids n
        else (acc.sys.lids n).write (stepToward (acc.cur n) (tgt n) 20)
  | [], _, _, _, hmem => absurd hmem (List.not_mem_nil _)
  | m :: names, acc, n, hnd, hmem => by
    simp only [List.foldl_cons]
    rcases List.mem_cons.mp hmem with rfl | hmem'
    · have hnin : n ∉ names := (List.nodup_cons.mp hnd).1
      rw [(passFold_frame tgt n names (passStep tgt acc n) hnin).2]
      by_cases hc : acc.cur n = tgt n
      · rw [passStep_at_tgt tgt acc n hc, if_pos hc]
      · rw [if_neg hc]
        simp only [passStep]
        rw [if_neg hc]
        simp only [writeLid]
        exact Function.update_same _ _ _
    · have hne : n ≠ m := by
        rintro rfl
        exact (List.nodup_cons.mp hnd).1 hmem'
      rw [passFold_sys_mem tgt names (passStep tgt acc m) n (List.nodup_cons.mp hnd).2 hmem',
        passStep_cur_ne tgt acc m n hne, passStep_lids_ne tgt acc m n hne]

/-- A member's turn keeps the `cur` dict in sync with the servos. -/
theorem passStep_inv (tgt : Lid → Int) (acc : GroupSt) (n : Lid)
    (h : curSysInv acc) : curSysInv (passStep tgt acc n) := by
  intro m
  simp only [passStep]
  split_ifs with hc
  · exact h m
  · by_cases hmn : m = n
    · subst hmn
      simp only [writeLid, Function.update_same]
      exact (write_current_us _ _).symm
    · simp only [writeLid, Function.update_noteq hmn]
      exact h m

/-- A pass keeps the `cur` dict in sync with the servos. -/
theorem passFold_inv (tgt : Lid → Int) :
    ∀ (names : List Lid) (acc : GroupSt), curSysInv acc →
      curSysInv (List.foldl (passStep tgt) acc names)
  | [], _, h => h
  | n :: names, acc, h => by
    simp only [List.foldl_cons]
    exact passFold_inv tgt names _ (passStep_inv tgt acc n h)

/-- A member's turn keeps every driven channel driven. -/
theorem passStep_powered (tgt : Lid → Int) (acc : GroupSt) (n : Lid)
    (h : allPowered acc.sys) : allPowered (passStep tgt acc n).sys := by
  intro m
  simp only [passStep]
  split_ifs with hc
  · exact h m
  · by_cases hmn : m = n
    · subst hmn
      simp only [writeLid, Function.update_same]
      exact write_pwm_isSome _ _ (h m)
    · simp only [writeLid, Function.update_noteq hmn]
      exact h m

/-- A pass keeps every driven channel driven. -/
theorem passFold_powered (tgt : Lid → Int) :
    ∀ (names : List Lid) (acc : GroupSt), allPowered acc.sys →
      allPowered (List.foldl (passStep tgt) acc names).sys
  | [], _, h => h
  | n :: names, acc, h => by
    simp only [List.foldl_cons]
    exact passFold_powered tgt names _ (passStep_powered tgt acc n h)

/-- A pass gives zero writes to a servo already at its target: neither
its `cur` entry nor its servo state changes, with or without duplicate
names. -/
theorem passFold_at_tgt (tgt : Lid → Int) :
    ∀ (names : List Lid) (acc : GroupSt) (n : Lid), acc.cur n = tgt n →
      (List.foldl (passStep tgt) acc names).cur n = acc.cur n ∧
      (List.foldl (passStep tgt) acc names).sys.lids n = acc.sys.lids n
  | [], _, _, _ => ⟨rfl, rfl⟩
  | m :: names, acc, n, h => by
    simp only [List.foldl_cons]
    by_cases hmn : n = m
    · subst hmn
      rw [passStep_at_tgt tgt acc n h]
      exact passFold_at_tgt tgt names acc n h
    · have h1 := passStep_cur_ne tgt acc m n hmn
      have h2 := passStep_lids_ne tgt acc m n hmn
      rcases passFold_at_tgt tgt names (passStep tgt acc m) n (h1.trans h) with ⟨h3, h4⟩
      exact ⟨h3.trans h1, h4.trans h2⟩

/-- Every element is bounded by the running maximum. -/
theorem le_foldrMax : ∀ (l : List Nat), ∀ x ∈ l, x ≤ l.foldr max 0
  | [], x, hx => absurd hx (List.not_mem_nil _)
  | a :: l, x, hx => by
    simp only [List.foldr_cons]
    rcases List.mem_cons.mp hx with rfl | hx'
    · exact le_max_left _ _
    · exact le_trans (le_foldrMax l x hx') (le_max_right _ _)

/-- A zero running maximum forces every element to zero. -/
theorem foldrMax_eq_zero (l : List Nat) (h : l.foldr max 0 = 0) :
    ∀ x ∈ l, x = 0 := by
  intro x hx
  have := le_foldrMax l x hx
  omega

/-- The running maximum of an all-zero list is zero. -/
theorem foldrMax_zero_of : ∀ (l : List Nat), (∀ x ∈ l, x = 0) → l.foldr max 0 = 0
  | [], _ => rfl
  | a :: l, h => by
    simp only [List.foldr_cons]
    have h1 : a = 0 := h a (List.mem_cons_self _ _)
    have h2 : l.foldr max 0 = 0 :=
      foldrMax_zero_of l fun x hx => h x (List.mem_cons_of_mem _ hx)
    simp [h1, h2]

/-- Truncated subtraction distributes over the maximum. -/
theorem max_sub_helper (a b c : Nat) : max (a - c) (b - c) = max a b - c := by
  rcases le_total a b with h | h
  · rw [max_eq_right h, max_eq_right (Nat.sub_le_sub_right h c)]
  · rw [max_eq_left h, max_eq_left (Nat.sub_le_sub_right h c)]

/-- Truncated subtraction distributes over the running maximum. -/
theorem foldrMax_map_sub : ∀ (l : List Nat) (c : Nat),
    (l.map (fun x => x - c)).foldr max 0 = l.foldr max 0 - c
  | [], c => by simp
  | a :: l, c => by
    simp only [List.map_cons, List.foldr_cons]
    rw [foldrMax_map_sub l c, max_sub_helper]

/-- Each member's distance is covered by `maxNeed` many 20 µs steps. -/
theorem maxNeed_dist_le (names : List Lid) (tgt cur : Lid → Int) (n : Lid)
    (hn : n ∈ names) :
    (tgt n - cur n).natAbs ≤ maxNeed names tgt cur * 20 := by
  have h1 : ceilSteps (tgt n - cur n).natAbs 20 ≤ maxNeed names tgt cur :=
    le_foldrMax _ _ (List.mem_map_of_mem _ hn)
  exact (ceilSteps_le_iff _ _ _ (by norm_num)).mp h1

/-- The loop exits right after a pass that reports `done`. -/
theorem groupLoop_succ_done (names : List Lid) (tgt : Lid → Int) (f : Nat)
    (st : GroupSt) (h : (groupPass names tgt st).done = true) :
    groupLoop names tgt (f + 1) st = groupPass names tgt st := by
  simp only [groupLoop, h, if_true]

/-- The loop continues after a pass that reports work left. -/
theorem groupLoop_succ_not_done (names : List Lid) (tgt : Lid → Int) (f : Nat)
    (st : GroupSt) (h : (groupPass names tgt st).done = false) :
    groupLoop names tgt (f + 1) st = groupLoop names tgt f (groupPass names tgt st) := by
  simp only [groupLoop, h]
  rfl

/-- A pass reporting `done` counts zero stepping iterations. -/
theorem groupLoopCount_succ_done (names : List Lid) (tgt : Lid → Int) (f : Nat)
    (st : GroupSt) (h : (groupPass names tgt st).done = true) :
    groupLoopCount names tgt (f + 1) st = 0 := by
  simp only [groupLoopCount, h, if_true]

/-- A pass reporting work left counts one stepping iteration. -/
theorem groupLoopCount_succ_not_done (names : List Lid) (tgt : Lid → Int) (f : Nat)
    (st : GroupSt) (h : (groupPass names tgt st).done = false) :
    groupLoopCount names tgt (f + 1) st
      = 1 + groupLoopCount names tgt f (groupPass names tgt st) := by
  simp only [groupLoopCount, h]
  rfl

/-- The loop never touches servos outside the member list. -/
theorem groupLoop_frame (names : List Lid) (tgt : Lid → Int) (m : Lid)
    (hm : m ∉ names) :
    ∀ (f : Nat) (st : GroupSt),
      (groupLoop names tgt f st).cur m = st.cur m ∧
      (groupLoop names tgt f st).sys.lids m = st.sys.lids m
  | 0, st => ⟨rfl, rfl⟩
  | f + 1, st => by
    rcases passFold_frame tgt m names { st with done := true } hm with ⟨h1, h2⟩
    by_cases hdone : (groupPass names tgt st).done = true
    · rw [groupLoop_succ_done names tgt f st hdone]
      exact ⟨h1, h2⟩
    · have hdone' : (groupPass names tgt st).done = false := by
        cases h : (groupPass names tgt st).done
        · rfl
        · exact absurd h hdone
      rw [groupLoop_succ_not_done names tgt f st hdone']
      rcases groupLoop_frame names tgt m hm f (groupPass names tgt st) with ⟨h3, h4⟩
      exact ⟨h3.trans h1, h4.trans h2⟩

/-- The loop never touches the gaze servos. -/
theorem groupLoop_ud_lr (names : List Lid) (tgt : Lid → Int) :
    ∀ (f : Nat) (st : GroupSt),
      (groupLoop names tgt f st).sys.ud = st.sys.ud ∧
      (groupLoop names tgt f st).sys.lr = st.sys.lr
  | 0, st => ⟨rfl, rfl⟩
  | f + 1, st => by
    rcases passFold_ud_lr tgt names { st with done := true } with ⟨h1, h2⟩
    by_cases hdone : (groupPass names tgt st).done = true
    · rw [groupLoop_succ_done names tgt f st hdone]
      exact ⟨h1, h2⟩
    · have hdone' : (groupPass names tgt st).done = false := by
        cases h : (groupPass names tgt st).done
        · rfl
        · exact absurd h hdone
      rw [groupLoop_succ_not_done names tgt f st hdone']
      rcases groupLoop_ud_lr names tgt f (groupPass names tgt st) with ⟨h3, h4⟩
      exact ⟨h3.trans h1, h4.trans h2⟩

/-- The loop keeps the `cur` dict in sync with the servos. -/
theorem groupLoop_inv (names : List Lid) (tgt : Lid → Int) :
    ∀ (f : Nat) (st : GroupSt), curSysInv st → curSysInv (groupLoop names tgt f st)
  | 0, _, h => h
  | f + 1, st, h => by
    have h' : curSysInv (groupPass names tgt st) := passFold_inv tgt names _ h
    by_cases hdone : (groupPass names tgt st).done = true
    · rw [groupLoop_succ_done names tgt f st hdone]
      exact h'
    · have hdone' : (groupPass names tgt st).done = false := by
        cases hb : (groupPass names tgt st).done
        · rfl
        · exact absurd hb hdone
      rw [groupLoop_succ_not_done names tgt f st hdone']
      exact groupLoop_inv names tgt f _ h'

/-- The loop keeps every driven channel driven. -/
theorem groupLoop_powered (names : List Lid) (tgt : Lid → Int) :
    ∀ (f : Nat) (st : GroupSt), allPowered st.sys →
      allPowered (groupLoop names tgt f st).sys
  | 0, _, h => h
  | f + 1, st, h => by
    have h' : allPowered (groupPass names tgt st).sys := passFold_powered tgt names _ h
    by_cases hdone : (groupPass names tgt st).done = true
    · rw [groupLoop_succ_done names tgt f st hdone]
      exact h'
    · have hdone' : (groupPass names tgt st).done = false := by
        cases hb : (groupPass names tgt st).done
        · rfl
        · exact absurd hb hdone
      rw [groupLoop_succ_not_done names tgt f st hdone']
      exact groupLoop_powered names tgt f _ h'

/-- Across the whole loop, a servo that starts at its target is never
written: its `cur` entry and its servo state are left alone. -/
theorem groupLoop_at_tgt (names : List Lid) (tgt : Lid → Int) :
    ∀ (f : Nat) (st : GroupSt) (n : Lid), st.cur n = tgt n →
      (groupLoop names tgt f st).cur n = st.cur n ∧
      (groupLoop names tgt f st).sys.lids n = st.sys.lids n
  | 0, st, n, _ => ⟨rfl, rfl⟩
  | f + 1, st, n, h => by
    rcases passFold_at_tgt tgt names { st with done := true } n h with ⟨h1, h2⟩
    by_cases hdone : (groupPass names tgt st).done = true
    · rw [groupLoop_succ_done names tgt f st hdone]
      exact ⟨h1, h2⟩
    · have hdone' : (groupPass names tgt st).done = false := by
        cases hb : (groupPass names tgt st).done
        · rfl
        · exact absurd hb hdone
      rw [groupLoop_succ_not_done names tgt f st hdone']
      rcases groupLoop_at_tgt names tgt f (groupPass names tgt st) n (h1.trans h)
        with ⟨h3, h4⟩
      exact ⟨h3.trans h1, h4.trans h2⟩

/-- Convergence of the synchronized loop: with distinct member names,
enough fuel, and every member within `N` steps of its target, every
member's `cur` entry ends exactly at its target. -/
theorem groupLoop_conv (names : List Lid) (tgt : Lid → Int) (hnd : names.Nodup) :
    ∀ (N : Nat) (st : GroupSt) (f : Nat),
      (∀ n ∈ names, (tgt n - st.cur n).natAbs ≤ N * 20) → N + 1 ≤ f →
      ∀ n ∈ names, (groupLoop names tgt f st).cur n = tgt n := by
  intro N
  induction N with
  | zero =>
    intro st f hdist hf n hn
    obtain ⟨f', rfl⟩ : ∃ f', f = f' + 1 := ⟨f - 1, by omega⟩
    have hall : ∀ m ∈ names, st.cur m = tgt m := by
      intro m hm
      have h0 := hdist m hm
      have h1 : (tgt m - st.cur m).natAbs = 0 := by omega
      have h2 := Int.natAbs_eq_zero.mp h1
      omega
    have hid : groupPass names tgt st = { st with done := true } :=
      passFold_id tgt names _ hall
    have hdone : (groupPass names tgt st).done = true := by rw [hid]
    rw [groupLoop_succ_done names tgt f' st hdone, hid]
    exact hall n hn
  | succ N ih =>
    intro st f hdist hf n hn
    obtain ⟨f', rfl⟩ : ∃ f', f = f' + 1 := ⟨f - 1, by omega⟩
    by_cases hdone : (groupPass names tgt st).done = true
    · have heq : groupPass names tgt st = { st with done := true } :=
        (passFold_done_true tgt names _ hdone).1
      have hall : ∀ m ∈ names, st.cur m = tgt m :=
        (passFold_done_true tgt names _ hdone).2
      rw [groupLoop_succ_done names tgt f' st hdone, heq]
      exact hall n hn
    · have hdone' : (groupPass names tgt st).done = false := by
        cases hb : (groupPass names tgt st).done
        · rfl
        · exact absurd hb hdone
      rw [groupLoop_succ_not_done names tgt f' st hdone']
      refine ih (groupPass names tgt st) f' ?_ (by omega) n hn
      intro m hm
      have hc : (groupPass names tgt st).cur m = stepToward (st.cur m) (tgt m) 20 :=
        passFold_cur_mem tgt names _ m hnd hm
      rw [hc, stepToward_dist _ _ _ (by norm_num)]
      have ht : ((20 : Int)).toNat = 20 := rfl
      rw [ht]
      have := hdist m hm
      omega

/-- Exact count of stepping iterations: with distinct member names and
enough fuel, the loop performs exactly `maxNeed` write-performing
iterations, the largest per-member `ceil(distance / 20)`. -/
theorem groupLoop_count (names : List Lid) (tgt : Lid → Int) (hnd : names.Nodup) :
    ∀ (N : Nat) (st : GroupSt) (f : Nat),
      maxNeed names tgt st.cur = N → N + 1 ≤ f →
      groupLoopCount names tgt f st = N := by
  intro N
  induction N with
  | zero =>
    intro st f hmax hf
    obtain ⟨f', rfl⟩ : ∃ f', f = f' + 1 := ⟨f - 1, by omega⟩
    have hall : ∀ m ∈ names, st.cur m = tgt m := by
      intro m hm
      have h1 : ceilSteps (tgt m - st.cur m).natAbs 20 = 0 :=
        foldrMax_eq_zero _ hmax _ (List.mem_map_of_mem _ hm)
      have h2 : (tgt m - st.cur m).natAbs = 0 :=
        (ceilSteps_eq_zero_iff _ _ (by norm_num)).mp h1
      have h3 := Int.natAbs_eq_zero.mp h2
      omega
    have hid : groupPass names tgt st = { st with done := true } :=
      passFold_id tgt names _ hall
    have hdone : (groupPass names tgt st).done = true := by rw [hid]
    exact groupLoopCount_succ_done names tgt f' st hdone
  | succ N ih =>
    intro st f hmax hf
    obtain ⟨f', rfl⟩ : ∃ f', f = f' + 1 := ⟨f - 1, by omega⟩
    have hdone : (groupPass names tgt st).done = false := by
      cases hb : (groupPass names tgt st).done
      · rfl
      · exfalso
        have hall : ∀ m ∈ names, st.cur m = tgt m :=
          (passFold_done_true tgt names _ hb).2
        have hzero : maxNeed names tgt st.cur = 0 := by
          apply foldrMax_zero_of
          intro x hx
          rcases List.mem_map.mp hx with ⟨m, hm, rfl⟩
          have h3 : st.cur m = tgt m := hall m hm
          rw [ceilSteps_eq_zero_iff _ _ (by norm_num), h3]
          simp
        omega
    rw [groupLoopCount_succ_not_done names tgt f' st hdone]
    have hmax' : maxNeed names tgt (groupPass names tgt st).cur = N := by
      unfold maxNeed
      have hmapeq :
          names.map (fun n => ceilSteps (tgt n - (groupPass names tgt st).cur n).natAbs 20)
            = names.map (fun n => ceilSteps (tgt n - st.cur n).natAbs 20 - 1) := by
        apply List.map_congr_left
        intro m hm
        have hc : (groupPass names tgt st).cur m = stepToward (st.cur m) (tgt m) 20 :=
          passFold_cur_mem tgt names { st with done := true } m hnd hm
        rw [hc, stepToward_dist _ _ _ (by norm_num)]
        have ht : ((20 : Int)).toNat = 20 := rfl
        rw [ht, ceilSteps_sub _ _ (by norm_num)]
      rw [hmapeq]
      have hmm :
          names.map (fun n => ceilSteps (tgt n - st.cur n).natAbs 20 - 1)
            = (names.map (fun n => ceilSteps (tgt n - st.cur n).natAbs 20)).map
                (fun x => x - 1) := by
        rw [List.map_map]
        rfl
      rw [hmm, foldrMax_map_sub]
      have hm2 : maxNeed names tgt st.cur = N + 1 := hmax
      unfold maxNeed at hm2
      rw [hm2]
      omega
    rw [ih (groupPass names tgt st) f' hmax' (by omega)]
    omega

/-- Enabling all lids enables each lid exactly once. -/
theorem enable_all_lids_lids (sys : Sys) (n : Lid) :
    (enable_all_lids sys).lids n = (sys.lids n).enable := by
  cases n <;> rfl

/-- Enabling all lids leaves the gaze servos alone. -/
theorem enable_all_lids_ud_lr (sys : Sys) :
    (enable_all_lids sys).ud = sys.ud ∧ (enable_all_lids sys).lr = sys.lr :=
  ⟨rfl, rfl⟩

/-- Unfolding of `move_group` when every member has the requested state. -/
theorem move_group_ok (names : List Lid) (state : String) (sys : Sys)
    (h : names.all (fun n => (SERVOS n state).isSome) = true) :
    move_group names state sys =
      Except.ok (groupLoop names (fun n => (SERVOS n state).getD 0)
        (fuelFor names (fun n => (SERVOS n state).getD 0)
          (fun n => ((enable_all_lids sys).lids n).current_us))
        { cur := fun n => ((enable_all_lids sys).lids n).current_us
          sys := enable_all_lids sys
          done := false }).sys := by
  unfold move_group
  rw [h]
  simp

/-- Unfolding of `move_group` when some member lacks the requested state. -/
theorem move_group_err (names : List Lid) (state : String) (sys : Sys)
    (h : names.all (fun n => (SERVOS n state).isSome) = false) :
    move_group names state sys = Except.error ("KeyError: " ++ state) := by
  unfold move_group
  rw [h]
  simp

/-- Releasing twice is the same as releasing once. -/
theorem release_release (b b' : Bool) (s : ServoLazy) :
    ServoLazy.release b (ServoLazy.release b' s) = ServoLazy.release b' s := by
  cases hp : s.pwm <;> cases b <;> cases b' <;>
    simp [ServoLazy.release, pwm_deinit, hp]

/-- The outcome of a release does not depend on whether deinit throws. -/
theorem release_indep (b b' : Bool) (s : ServoLazy) :
    ServoLazy.release b s = ServoLazy.release b' s := by
  cases hp : s.pwm <;> cases b <;> cases b' <;>
    simp [ServoLazy.release, pwm_deinit, hp]

/-- Releasing everything twice is the same as releasing everything once. -/
theorem release_all_release_all (b b' : Bool) (sys : Sys) :
    release_all b (release_all b' sys) = release_all b' sys := by
  unfold release_all
  congr 1
  · funext n
    exact release_release b b' (sys.lids n)
  · exact release_release b b' sys.ud
  · exact release_release b b' sys.lr

/-- After a release nothing is driven. -/
theorem release_pwm_none (b : Bool) (s : ServoLazy) :
    (ServoLazy.release b s).pwm = none := by
  cases hp : s.pwm <;> cases b <;> simp [ServoLazy.release, pwm_deinit, hp]

/-- A release never changes the recorded pulse. -/
theorem release_current_us (b : Bool) (s : ServoLazy) :
    (ServoLazy.release b s).current_us = s.current_us := by
  cases hp : s.pwm <;> cases b <;> simp [ServoLazy.release, pwm_deinit, hp]

/-- After `release_all` every channel in the system is off. -/
theorem release_all_released (b : Bool) (sys : Sys) :
    allReleased (release_all b sys) :=
  ⟨fun n => release_pwm_none b (sys.lids n), release_pwm_none b sys.ud,
    release_pwm_none b sys.lr⟩

/-- With distinct member names and a target entry for every member, a
group transition returns and every member's recorded pulse equals its
calibrated target exactly. -/
theorem move_group_members (names : List Lid) (state : String) (sys : Sys)
    (hnd : names.Nodup) (h : ∀ n ∈ names, (SERVOS n state).isSome = true) :
    ∃ sys', move_group names state sys = Except.ok sys' ∧
      ∀ n ∈ names, some ((sys'.lids n).current_us) = SERVOS n state := by
  have hall : names.all (fun n => (SERVOS n state).isSome) = true :=
    List.all_eq_true.mpr h
  refine ⟨_, move_group_ok names state sys hall, ?_⟩
  intro n hn
  have hinv := groupLoop_inv names (fun n => (SERVOS n state).getD 0)
    (fuelFor names (fun n => (SERVOS n state).getD 0)
      (fun n => ((enable_all_lids sys).lids n).current_us))
    { cur := fun n => ((enable_all_lids sys).lids n).current_us
      sys := enable_all_lids sys
      done := false } (fun _ => rfl)
  have hconv := groupLoop_conv names (fun n => (SERVOS n state).getD 0) hnd
    (maxNeed names (fun n => (SERVOS n state).getD 0)
      (fun n => ((enable_all_lids sys).lids n).current_us))
    { cur := fun n => ((enable_all_lids sys).lids n).current_us
      sys := enable_all_lids sys
      done := false }
    (fuelFor names (fun n => (SERVOS n state).getD 0)
      (fun n => ((enable_all_lids sys).lids n).current_us))
    (fun m hm => maxNeed_dist_le names (fun n => (SERVOS n state).getD 0)
      (fun n => ((enable_all_lids sys).lids n).current_us) m hm)
    (Nat.le_of_eq rfl) n hn
  rw [← hinv n, hconv]
  rcases Option.isSome_iff_exists.mp (h n hn) with ⟨v, hv⟩
  simp [hv]

/-- A group transition with a target entry for every member powers all
four lids and never rewrites the recorded pulse of a servo outside the
member list; the gaze servos are untouched. -/
theorem move_group_power_frame (names : List Lid) (state : String) (sys : Sys)
    (h : ∀ n ∈ names, (SERVOS n state).isSome = true) :
    ∃ sys', move_group names state sys = Except.ok sys' ∧
      (∀ n : Lid, ((sys'.lids n).pwm).isSome = true) ∧
      (∀ n : Lid, n ∉ names → (sys'.lids n).current_us = (sys.lids n).current_us) ∧
      sys'.ud = sys.ud ∧ sys'.lr = sys.lr := by
  have hall : names.all (fun n => (SERVOS n state).isSome) = true :=
    List.all_eq_true.mpr h
  refine ⟨_, move_group_ok names state sys hall, ?_, ?_, ?_, ?_⟩
  · intro n
    have hpow : allPowered (enable_all_lids sys) := by
      intro m
      rw [enable_all_lids_lids sys m]
      exact enable_pwm_isSome (sys.lids m)
    exact groupLoop_powered names _ _ _ hpow n
  · intro n hn
    have hfr := (groupLoop_frame names (fun n => (SERVOS n state).getD 0) n hn
      (fuelFor names (fun n => (SERVOS n state).getD 0)
        (fun n => ((enable_all_lids sys).lids n).current_us))
      { cur := fun n => ((enable_all_lids sys).lids n).current_us
        sys := enable_all_lids sys
        done := false }).2
    rw [hfr]
    show ((enable_all_lids sys).lids n).current_us = (sys.lids n).current_us
    rw [enable_all_lids_lids sys n]
    exact enable_current_us (sys.lids n)
  · exact (groupLoop_ud_lr names _ _ _).1
  · exact (groupLoop_ud_lr names _ _ _).2

/-- C1: for every group transition `move_group(names, state)` over
distinct member names with a valid state entry for every member, the
call returns and every member's recorded pulse equals exactly its
calibrated target `SERVOS[name][state]`, for arbitrary starting pulses. -/
theorem C1_group_transition_exact (sys : Sys) (names : List Lid) (state : String)
    (hnd : names.Nodup) (h : ∀ n ∈ names, (SERVOS n state).isSome = true) :
    ∃ sys', move_group names state sys = Except.ok sys' ∧
      ∀ n ∈ names, some ((sys'.lids n).current_us) = SERVOS n state :=
  move_group_members names state sys hnd h

/-- Witness for C1: closing the left pair from the initial state drives
TL to 1155 and BL to 2360 exactly. -/
theorem C1_group_transition_exact_witness :
    ∃ sys', move_group [Lid.TL, Lid.BL] "closed" initSys = Except.ok sys' ∧
      ∀ n ∈ [Lid.TL, Lid.BL], some ((sys'.lids n).current_us) = SERVOS n "closed" :=
  C1_group_transition_exact initSys [Lid.TL, Lid.BL] "closed" (by decide) (by decide)

/-- C2: over distinct member names with sufficient fuel, the group loop
performs exactly `maxNeed` stepping iterations, the largest per-member
`ceil(|start - target| / 20)`; a member already at its target receives
zero writes while the loop continues; and in the concrete scenario
A: 1000 to 2000, B: 1800 to 1800, B's servo is never written, the loop
steps for exactly 50 iterations and ends with A = 2000 and B = 1800. -/
theorem C2_sync_duration (names : List Lid) (tgt : Lid → Int) (st : GroupSt)
    (f : Nat) (hnd : names.Nodup) (hf : maxNeed names tgt st.cur + 1 ≤ f) :
    (groupLoopCount names tgt f st = maxNeed names tgt st.cur ∧
      ∀ n, st.cur n = tgt n →
        (groupLoop names tgt f st).cur n = st.cur n ∧
        (groupLoop names tgt f st).sys.lids n = st.sys.lids n) ∧
    (groupLoopCount scenNames scenTgt 51 scenSt = 50 ∧
      (groupLoop scenNames scenTgt 51 scenSt).cur Lid.TL = 2000 ∧
      ((groupLoop scenNames scenTgt 51 scenSt).sys.lids Lid.TL).current_us = 2000 ∧
      (groupLoop scenNames scenTgt 51 scenSt).cur Lid.BL = 1800 ∧
      (groupLoop scenNames scenTgt 51 scenSt).sys.lids Lid.BL = scenSys.lids Lid.BL) := by
  refine ⟨⟨groupLoop_count names tgt hnd (maxNeed names tgt st.cur) st f rfl hf, ?_⟩, ?_⟩
  · intro n htg
    exact groupLoop_at_tgt names tgt f st n htg
  · refine ⟨by decide, by decide, by decide, by decide, by decide⟩

/-- Witness for C2: the scenario itself, instantiating the theorem at
the scenario group. -/
theorem C2_sync_duration_witness :
    groupLoopCount scenNames scenTgt 51 scenSt = 50 ∧
      (groupLoop scenNames scenTgt 51 scenSt).cur Lid.TL = 2000 ∧
      ((groupLoop scenNames scenTgt 51 scenSt).sys.lids Lid.TL).current_us = 2000 ∧
      (groupLoop scenNames scenTgt 51 scenSt).cur Lid.BL = 1800 ∧
      (groupLoop scenNames scenTgt 51 scenSt).sys.lids Lid.BL = scenSys.lids Lid.BL :=
  (C2_sync_duration scenNames scenTgt scenSt 51 (by decide) (by decide)).2

/-- C3: monotonic convergence of a ramp with positive step: the distance
to the target never increases across a step, follows the closed form
`dist - k * step`, hits zero at exactly `ceil(dist / step)` steps and
not before; a `move_group` member's per-pass update is exactly one such
step, the `ServoLazy.move` loop follows the same iteration, and
`ServoLazy.move` ends on its target. -/
theorem C3_monotonic_convergence (s t c : Int) (hs : 0 < s) :
    (∀ k : Nat, (t - iterStep s t (k + 1) c).natAbs ≤ (t - iterStep s t k c).natAbs) ∧
    (∀ k : Nat, (t - iterStep s t k c).natAbs = (t - c).natAbs - k * s.toNat) ∧
    iterStep s t (ceilSteps (t - c).natAbs s.toNat) c = t ∧
    (∀ k : Nat, k < ceilSteps (t - c).natAbs s.toNat → iterStep s t k c ≠ t) ∧
    (∀ (names : List Lid) (tgt : Lid → Int) (st : GroupSt) (n : Lid),
      names.Nodup → n ∈ names →
      (groupPass names tgt st).cur n = stepToward (st.cur n) (tgt n) 20) ∧
    (∀ (sv : ServoLazy) (k : Nat),
      (moveLoop t (s * dirOf sv.current_us t) (dirOf sv.current_us t) k sv).current_us
        = iterStep s t k sv.current_us) ∧
    (∀ sv : ServoLazy, (ServoLazy.move sv t s).current_us = t) := by
  have hpos : 0 < s.toNat := by omega
  refine ⟨?_, fun k => iterStep_dist s t hs k c, ?_, ?_, ?_, ?_, ?_⟩
  · intro k
    rw [iterStep_dist s t hs (k + 1) c, iterStep_dist s t hs k c, Nat.succ_mul]
    generalize k * s.toNat = m
    omega
  · exact (iterStep_eq_iff s t hs _ c).mpr ((ceilSteps_le_iff _ _ _ hpos).mp le_rfl)
  · intro k hk he
    have h1 := (iterStep_eq_iff s t hs k c).mp he
    have h2 := (ceilSteps_le_iff (t - c).natAbs s.toNat k hpos).mpr h1
    omega
  · intro names tgt st n hnd hn
    exact passFold_cur_mem tgt names { st with done := true } n hnd hn
  · intro sv k
    exact moveLoop_current t s (dirOf sv.current_us t) hs k sv (Or.inr rfl)
  · intro sv
    exact move_current_us sv t s hs

/-- Witness for C3: the ramp from 1000 to 2000 with step 20 ends on the
target in the predicted number of steps. -/
theorem C3_monotonic_convergence_witness :
    iterStep 20 2000 (ceilSteps ((2000 - 1000 : Int)).natAbs ((20 : Int)).toNat) 1000
        = 2000 ∧
      (ServoLazy.move { pin := 1, current_us := 1000, pwm := none } 2000 20).current_us
        = 2000 := by
  have h := C3_monotonic_convergence 20 2000 1000 (by decide)
  exact ⟨h.2.2.1, h.2.2.2.2.2.2 _⟩

/-- C4: the pulse-to-duty conversion is exact floor integer arithmetic
`duty = floor(us * 65535 / 20000)` on every non-negative input, with
the three calibration check values. -/
theorem C4_us_to_duty_exact :
    (∀ n : Nat, us_to_duty (n : Int) = ((n * 65535 / 20000 : Nat) : Int)) ∧
    us_to_duty 1500 = 4915 ∧ us_to_duty 500 = 1638 ∧ us_to_duty 2500 = 8191 := by
  refine ⟨?_, by decide, by decide, by decide⟩
  intro n
  unfold us_to_duty PERIOD_US
  rw [show ((n : Int) * 65535) = ((n * 65535 : Nat) : Int) by push_cast; ring]
  exact (Int.ofNat_fdiv _ _).symm

/-- C5: a group transition naming a member with no entry for the
requested named state fails loudly with an error instead of silently
skipping the member. -/
theorem C5_missing_state_fails (names : List Lid) (state : String) (sys : Sys)
    (h : ∃ n ∈ names, SERVOS n state = none) :
    move_group names state sys = Except.error ("KeyError: " ++ state) := by
  have hall : names.all (fun n => (SERVOS n state).isSome) = false := by
    rcases h with ⟨n, hn, hnone⟩
    cases hb : names.all (fun n => (SERVOS n state).isSome)
    · rfl
    · exfalso
      have h1 := List.all_eq_true.mp hb n hn
      rw [hnone] at h1
      simp at h1
  exact move_group_err names state sys hall

/-- Witness for C5: requesting the undefined state "foo" for TL raises. -/
theorem C5_missing_state_fails_witness :
    move_group [Lid.TL] "foo" initSys = Except.error ("KeyError: " ++ "foo") :=
  C5_missing_state_fails [Lid.TL] "foo" initSys ⟨Lid.TL, by decide, by decide⟩

/-- C6: release is idempotent and total: releasing an already-released
actuator is a no-op, the result never depends on whether the underlying
PWM deinit throws (the exception is swallowed), releasing twice equals
releasing once, and `release_all` twice in a row changes nothing more
than once. -/
theorem C6_release_idempotent_total (p c : Int) (b b' : Bool) (s : ServoLazy)
    (sys : Sys) :
    ServoLazy.release b { pin := p, current_us := c, pwm := none }
        = { pin := p, current_us := c, pwm := none } ∧
      ServoLazy.release b s = ServoLazy.release b' s ∧
      ServoLazy.release b (ServoLazy.release b' s) = ServoLazy.release b' s ∧
      release_all b (release_all b' sys) = release_all b' sys :=
  ⟨rfl, release_indep b b' s, release_release b b' s,
    release_all_release_all b b' sys⟩

/-- C8: `write(us)` records `us` unconditionally with no clamping; the
duty register is updated iff the actuator is powered; when unpowered the
value is recorded but not applied, and a subsequent `enable()` drives
the output at the recorded value. -/
theorem C8_write_records_unconditionally (p c d us : Int) :
    (∀ (sv : ServoLazy) (v : Int), (sv.write v).current_us = v) ∧
      ServoLazy.write { pin := p, current_us := c, pwm := some d } us
        = { pin := p, current_us := us, pwm := some (us_to_duty us) } ∧
      ServoLazy.write { pin := p, current_us := c, pwm := none } us
        = { pin := p, current_us := us, pwm := none } ∧
      ServoLazy.enable (ServoLazy.write { pin := p, current_us := c, pwm := none } us)
        = { pin := p, current_us := us, pwm := some (us_to_duty us) } :=
  ⟨write_current_us, rfl, rfl, rfl⟩

/-- C9: every returning `move_group` call powers on all four eyelid
servos, including servos outside the member list, while never rewriting
the recorded pulse of servos outside the list (gaze servos untouched). -/
theorem C9_move_group_powers_all (sys : Sys) (names : List Lid) (state : String)
    (h : ∀ n ∈ names, (SERVOS n state).isSome = true) :
    ∃ sys', move_group names state sys = Except.ok sys' ∧
      (∀ n : Lid, ((sys'.lids n).pwm).isSome = true) ∧
      (∀ n : Lid, n ∉ names → (sys'.lids n).current_us = (sys.lids n).current_us) ∧
      sys'.ud = sys.ud ∧ sys'.lr = sys.lr :=
  move_group_power_frame names state sys h

/-- Witness for C9: a left-eye close powers the right eye's servos too
while leaving their recorded pulses alone. -/
theorem C9_move_group_powers_all_witness :
    ∃ sys', move_group LEFT_EYE "closed" initSys = Except.ok sys' ∧
      (∀ n : Lid, ((sys'.lids n).pwm).isSome = true) ∧
      (∀ n : Lid, n ∉ LEFT_EYE → (sys'.lids n).current_us = (initSys.lids n).current_us) ∧
      sys'.ud = initSys.ud ∧ sys'.lr = initSys.lr :=
  C9_move_group_powers_all initSys LEFT_EYE "closed" (by decide)

/-- The open entry of every lid is present. -/
theorem SERVOS_open_eq (n : Lid) : SERVOS n "open" = some (openUs n) := by
  cases n <;> rfl

/-- The closed entry of every lid is present. -/
theorem SERVOS_closed_eq (n : Lid) : SERVOS n "closed" = some (closedUs n) := by
  cases n <;> rfl

/-- Releasing everything keeps every recorded pulse. -/
theorem release_all_atCal (b : Bool) (sys : Sys) (h : atCalibrated sys) :
    atCalibrated (release_all b sys) := by
  intro n
  show ((sys.lids n).release b).current_us = _ ∨ ((sys.lids n).release b).current_us = _
  rw [release_current_us]
  exact h n

/-- A valid-state group transition keeps every lid at one of its two
calibrated positions: members land on the requested one, non-members
keep theirs. -/
theorem move_group_atCal (names : List Lid) (state : String) (sys : Sys)
    (hnd : names.Nodup) (hstate : state = "open" ∨ state = "closed")
    (hcal : atCalibrated sys) :
    ∃ sys', move_group names state sys = Except.ok sys' ∧ atCalibrated sys' := by
  have hsome : ∀ n ∈ names, (SERVOS n state).isSome = true := by
    intro n _
    rcases hstate with rfl | rfl <;> cases n <;> decide
  obtain ⟨s1, h1, h1m⟩ := move_group_members names state sys hnd hsome
  obtain ⟨s2, h2, _, h2fr, _, _⟩ := move_group_power_frame names state sys hsome
  rw [h1] at h2
  injection h2 with h2'
  subst h2'
  refine ⟨s1, h1, ?_⟩
  intro n
  by_cases hn : n ∈ names
  · have hm := h1m n hn
    rcases hstate with rfl | rfl
    · left
      rw [SERVOS_open_eq n] at hm
      exact Option.some_injective _ hm
    · right
      rw [SERVOS_closed_eq n] at hm
      exact Option.some_injective _ hm
  · have hfr := h2fr n hn
    rcases hcal n with hc | hc
    · left
      rw [hfr]
      exact hc
    · right
      rw [hfr]
      exact hc

/-- Every returning group transition exists whenever all lookups do. -/
theorem move_group_returns (names : List Lid) (state : String) (sys : Sys)
    (h : names.all (fun n => (SERVOS n state).isSome) = true) :
    ∃ sys', move_group names state sys = Except.ok sys' :=
  ⟨_, move_group_ok names state sys h⟩

/-- `lids_open` always returns, with everything released; from a
calibrated state it also preserves calibration. -/
theorem lids_open_run (b : Bool) (sys : Sys) :
    ∃ sys', lids_open b sys = Except.ok sys' ∧ allReleased sys' ∧
      (atCalibrated sys → atCalibrated sys') := by
  by_cases hcal : atCalibrated sys
  · obtain ⟨s1, h1, hc1⟩ := move_group_atCal ALL_LIDS "open" sys (by decide)
      (Or.inl rfl) hcal
    refine ⟨release_all b s1, ?_, release_all_released b s1,
      fun _ => release_all_atCal b s1 hc1⟩
    unfold lids_open
    rw [h1]
    rfl
  · obtain ⟨s1, h1⟩ := move_group_returns ALL_LIDS "open" sys (by decide)
    refine ⟨release_all b s1, ?_, release_all_released b s1, fun hc => absurd hc hcal⟩
    unfold lids_open
    rw [h1]
    rfl

/-- `lids_close` always returns, with everything released; from a
calibrated state it also preserves calibration. -/
theorem lids_close_run (b : Bool) (sys : Sys) :
    ∃ sys', lids_close b sys = Except.ok sys' ∧ allReleased sys' ∧
      (atCalibrated sys → atCalibrated sys') := by
  by_cases hcal : atCalibrated sys
  · obtain ⟨s1, h1, hc1⟩ := move_group_atCal ALL_LIDS "closed" sys (by decide)
      (Or.inr rfl) hcal
    refine ⟨release_all b s1, ?_, release_all_released b s1,
      fun _ => release_all_atCal b s1 hc1⟩
    unfold lids_close
    rw [h1]
    rfl
  · obtain ⟨s1, h1⟩ := move_group_returns ALL_LIDS "closed" sys (by decide)
    refine ⟨release_all b s1, ?_, release_all_released b s1, fun hc => absurd hc hcal⟩
    unfold lids_close
    rw [h1]
    rfl

/-- `blink` always returns, with everything released; from a calibrated
state it also preserves calibration. -/
theorem blink_run (b : Bool) (sys : Sys) :
    ∃ sys', blink b sys = Except.ok sys' ∧ allReleased sys' ∧
      (atCalibrated sys → atCalibrated sys') := by
  obtain ⟨s1, h1, _, hc1⟩ := lids_close_run b sys
  obtain ⟨s2, h2, hr2, hc2⟩ := lids_open_run b s1
  refine ⟨s2, ?_, hr2, fun hc => hc2 (hc1 hc)⟩
  unfold blink
  rw [h1]
  exact h2

/-- `wink_left` always returns, with everything released; from a
calibrated state it also preserves calibration. -/
theorem wink_left_run (b : Bool) (sys : Sys) :
    ∃ sys', wink_left b sys = Except.ok sys' ∧ allReleased sys' ∧
      (atCalibrated sys → atCalibrated sys') := by
  by_cases hcal : atCalibrated sys
  · obtain ⟨s1, h1, hc1⟩ := move_group_atCal LEFT_EYE "closed" sys (by decide)
      (Or.inr rfl) hcal
    obtain ⟨s2, h2, hc2⟩ := move_group_atCal LEFT_EYE "open" s1 (by decide)
      (Or.inl rfl) hc1
    refine ⟨release_all b s2, ?_, release_all_released b s2,
      fun _ => release_all_atCal b s2 hc2⟩
    unfold wink_left
    rw [h1]
    show (move_group LEFT_EYE "open" s1).map (release_all b) = _
    rw [h2]
    rfl
  · obtain ⟨s1, h1⟩ := move_group_returns LEFT_EYE "closed" sys (by decide)
    obtain ⟨s2, h2⟩ := move_group_returns LEFT_EYE "open" s1 (by decide)
    refine ⟨release_all b s2, ?_, release_all_released b s2, fun hc => absurd hc hcal⟩
    unfold wink_left
    rw [h1]
    show (move_group LEFT_EYE "open" s1).map (release_all b) = _
    rw [h2]
    rfl

/-- `wink_right` always returns, with everything released; from a
calibrated state it also preserves calibration. -/
theorem wink_right_run (b : Bool) (sys : Sys) :
    ∃ sys', wink_right b sys = Except.ok sys' ∧ allReleased sys' ∧
      (atCalibrated sys → atCalibrated sys') := by
  by_cases hcal : atCalibrated sys
  · obtain ⟨s1, h1, hc1⟩ := move_group_atCal RIGHT_EYE "closed" sys (by decide)
      (Or.inr rfl) hcal
    obtain ⟨s2, h2, hc2⟩ := move_group_atCal RIGHT_EYE "open" s1 (by decide)
      (Or.inl rfl) hc1
    refine ⟨release_all b s2, ?_, release_all_released b s2,
      fun _ => release_all_atCal b s2 hc2⟩
    unfold wink_right
    rw [h1]
    show (move_group RIGHT_EYE "open" s1).map (release_all b) = _
    rw [h2]
    rfl
  · obtain ⟨s1, h1⟩ := move_group_returns RIGHT_EYE "closed" sys (by decide)
    obtain ⟨s2, h2⟩ := move_group_returns RIGHT_EYE "open" s1 (by decide)
    refine ⟨release_all b s2, ?_, release_all_released b s2, fun hc => absurd hc hcal⟩
    unfold wink_right
    rw [h1]
    show (move_group RIGHT_EYE "open" s1).map (release_all b) = _
    rw [h2]
    rfl

/-- A valid public operation returns and preserves calibration. -/
theorem applyOp_preserves (op : Op) (sys : Sys) (hv : validOp op = true)
    (hcal : atCalibrated sys) :
    ∃ sys', applyOp op sys = Except.ok sys' ∧ atCalibrated sys' := by
  cases op with
  | opLidsOpen b =>
    obtain ⟨s1, h1, _, hc⟩ := lids_open_run b sys
    exact ⟨s1, h1, hc hcal⟩
  | opLidsClose b =>
    obtain ⟨s1, h1, _, hc⟩ := lids_close_run b sys
    exact ⟨s1, h1, hc hcal⟩
  | opBlink b =>
    obtain ⟨s1, h1, _, hc⟩ := blink_run b sys
    exact ⟨s1, h1, hc hcal⟩
  | opWinkLeft b =>
    obtain ⟨s1, h1, _, hc⟩ := wink_left_run b sys
    exact ⟨s1, h1, hc hcal⟩
  | opWinkRight b =>
    obtain ⟨s1, h1, _, hc⟩ := wink_right_run b sys
    exact ⟨s1, h1, hc hcal⟩
  | opReleaseAll b =>
    exact ⟨release_all b sys, rfl, release_all_atCal b sys hcal⟩
  | opMoveGroup names state =>
    simp only [validOp, Bool.and_eq_true, Bool.or_eq_true, beq_iff_eq,
      decide_eq_true_eq] at hv
    exact move_group_atCal names state sys hv.2 hv.1 hcal

/-- A sequence of valid public operations returns and preserves
calibration. -/
theorem runOps_atCal :
    ∀ (ops : List Op) (sys : Sys), (∀ op ∈ ops, validOp op = true) →
      atCalibrated sys → ∃ sys', runOps ops sys = Except.ok sys' ∧ atCalibrated sys'
  | [], sys, _, hcal => ⟨sys, rfl, hcal⟩
  | op :: ops, sys, hv, hcal => by
    obtain ⟨s1, h1, hc1⟩ :=
      applyOp_preserves op sys (hv op (List.mem_cons_self _ _)) hcal
    obtain ⟨s2, h2, hc2⟩ :=
      runOps_atCal ops s1 (fun o ho => hv o (List.mem_cons_of_mem _ ho)) hc1
    refine ⟨s2, ?_, hc2⟩
    show (applyOp op sys).bind (runOps ops) = Except.ok s2
    rw [h1]
    exact h2

/-- The initial module state is calibrated: every lid starts open. -/
theorem initSys_atCal : atCalibrated initSys := fun _ => Or.inl rfl

/-- C7: starting from the initial calibrated state, after any sequence
of valid public gesture operations every eyelid's recorded pulse lies
within the closed interval between its calibrated open and closed
pulses, and within the 700-2360 µs span of the eyelid set. -/
theorem C7_eyelid_range_invariant (ops : List Op)
    (hv : ∀ op ∈ ops, validOp op = true) :
    ∃ sys', runOps ops initSys = Except.ok sys' ∧
      ∀ n, min (openUs n) (closedUs n) ≤ (sys'.lids n).current_us ∧
        (sys'.lids n).current_us ≤ max (openUs n) (closedUs n) ∧
        700 ≤ (sys'.lids n).current_us ∧ (sys'.lids n).current_us ≤ 2360 := by
  obtain ⟨sys', h1, hcal⟩ := runOps_atCal ops initSys hv initSys_atCal
  refine ⟨sys', h1, ?_⟩
  intro n
  rcases hcal n with hc | hc <;> rw [hc] <;> cases n <;>
    exact ⟨by decide, by decide, by decide, by decide⟩

/-- Witness for C7: a blink followed by a left wink and a direct group
transition keeps every lid in range. -/
theorem C7_eyelid_range_invariant_witness :
    ∃ sys', runOps [Op.opBlink false, Op.opWinkLeft true,
        Op.opMoveGroup ALL_LIDS "closed"] initSys = Except.ok sys' ∧
      ∀ n, min (openUs n) (closedUs n) ≤ (sys'.lids n).current_us ∧
        (sys'.lids n).current_us ≤ max (openUs n) (closedUs n) ∧
        700 ≤ (sys'.lids n).current_us ∧ (sys'.lids n).current_us ≤ 2360 :=
  C7_eyelid_range_invariant
    [Op.opBlink false, Op.opWinkLeft true, Op.opMoveGroup ALL_LIDS "closed"]
    (by decide)

/-- C10: every lid gesture finishes with `release_all`: each returns
with every actuator in the system unpowered, the gaze servos UD and LR
included. -/
theorem C10_gestures_release_everything (sys : Sys) (b : Bool) :
    (∃ s1, lids_open b sys = Except.ok s1 ∧ allReleased s1) ∧
    (∃ s2, lids_close b sys = Except.ok s2 ∧ allReleased s2) ∧
    (∃ s3, blink b sys = Except.ok s3 ∧ allReleased s3) ∧
    (∃ s4, wink_left b sys = Except.ok s4 ∧ allReleased s4) ∧
    (∃ s5, wink_right b sys = Except.ok s5 ∧ allReleased s5) := by
  obtain ⟨s1, h1, hr1, _⟩ := lids_open_run b sys
  obtain ⟨s2, h2, hr2, _⟩ := lids_close_run b sys
  obtain ⟨s3, h3, hr3, _⟩ := blink_run b sys
  obtain ⟨s4, h4, hr4, _⟩ := wink_left_run b sys
  obtain ⟨s5, h5, hr5, _⟩ := wink_right_run b sys
  exact ⟨⟨s1, h1, hr1⟩, ⟨s2, h2, hr2⟩, ⟨s3, h3, hr3⟩, ⟨s4, h4, hr4⟩, ⟨s5, h5, hr5⟩⟩
